import Mathlib

/-!
# Verification of `scan_vault` (src/src-tauri/src/vault.rs)

Shallow embedding of the vault-scanning routine of the `slate` repository.

The filesystem is modelled as a tree of named nodes (`FsTree`): regular
files, readable directories with their children in OS-enumeration order,
and unreadable directories (directories whose entry is visible but whose
contents cannot be read; `walkdir` yields the directory entry itself and
then an `Err` item for its contents, which the code drops via
`filter_map(Result::ok)`).  Children are carried by the mutually inductive
`FsForest` so that every function on trees is structural.

Paths are lists of components (an OS path split at the separator); node
names are Lean `String`s, i.e. the model covers UTF-8 decodable names.
Rendering a path to the `String` the Rust code would produce uses the `/`
separator, as on the Unix targets of the reference code.

`scan_vault` takes the ambient filesystem (`Fs`: an optional home
directory plus the tree rooted at `/`) and the vault path relative to the
home directory, mirroring `dirs::home_dir()`, `home.join(..)`,
`vault_root.exists()` and the `WalkDir` traversal with
`filter_entry(|e| !is_hidden(e))` and `filter(|e| is_markdown_file(e.path()))`.

Rust's `Vec::sort_by` is a stable sort; a stable sort's output is uniquely
determined by the input list and the comparator, so it is embedded by the
(stable) insertion sort of Mathlib.
-/

mutual

/-- A filesystem node: a regular file, a directory with its children in
OS-enumeration order, or a directory whose contents cannot be read. -/
inductive FsTree where
  | file (name : String)
  | dir (name : String) (children : FsForest)
  | unreadableDir (name : String)

/-- The children of a directory, in the order the OS enumerates them. -/
inductive FsForest where
  | nil
  | cons (head : FsTree) (tail : FsForest)

end

/-- Build a forest from a list of trees. -/
def forestOf : List FsTree → FsForest
  | [] => .nil
  | t :: ts => .cons t (forestOf ts)

/-- The base name of a node. -/
def FsTree.name : FsTree → String
  | .file n => n
  | .dir n _ => n
  | .unreadableDir n => n

/-- Whether the node is a regular file (what `Path::is_file` reports). -/
def FsTree.isFile : FsTree → Bool
  | .file _ => true
  | _ => false

/-- Membership of a tree in a forest. -/
def FsForest.mem (t : FsTree) : FsForest → Prop
  | .nil => False
  | .cons c rest => t = c ∨ FsForest.mem t rest

/-- The base names of the trees of a forest. -/
def FsForest.names : FsForest → List String
  | .nil => []
  | .cons c rest => c.name :: rest.names

/-- Find the tree of a given base name in a forest (first match). -/
def FsForest.find (c : String) : FsForest → Option FsTree
  | .nil => none
  | .cons u rest => if u.name == c then some u else FsForest.find c rest

/-- `is_hidden` from vault.rs: the entry's file name starts with `.`
(on names that decode as UTF-8; a non-decodable name is not hidden). -/
def is_hidden (s : String) : Bool :=
  match s.data with
  | [] => false
  | c :: _ => c == '.'

/-- Helper for `rustExtension`: the characters after the last `.` of the
list, or `none` when the list has no dot. -/
def afterLastDot : List Char → Option (List Char)
  | [] => none
  | c :: rest =>
    match afterLastDot rest with
    | some e => some e
    | none => if c == '.' then some rest else none

/-- Rust `Path::extension` on a base name: the portion of the name after
the last `.`, except that a dot in first position alone does not count
(`".md"` has no extension; `"a.md"` and `".note.md"` have `"md"`).  The
search therefore ignores the first character of the name. -/
def rustExtension (name : String) : Option String :=
  match name.data with
  | [] => none
  | _ :: rest => (afterLastDot rest).map fun e => ⟨e⟩

/-- An entry yielded by the `WalkDir` traversal: its path, its base name
and whether it is a regular file. -/
structure RawEntry where
  path : List String
  name : String
  isFile : Bool
deriving DecidableEq

/-- `is_markdown_file` from vault.rs: a regular file whose extension is
exactly `md` (case-sensitive byte comparison). -/
def is_markdown_file (r : RawEntry) : Bool :=
  r.isFile && rustExtension r.name == some "md"

mutual

/-- The `WalkDir` traversal, with `filter_entry(|e| !is_hidden(e))`
applied: a hidden entry is neither yielded nor descended into (this
applies to the root entry as well); an unreadable directory is yielded
but its contents, being an `Err` item, are dropped by
`filter_map(Result::ok)`. -/
def walk (p : List String) : FsTree → List RawEntry
  | .file n => if is_hidden n then [] else [⟨p, n, true⟩]
  | .unreadableDir n => if is_hidden n then [] else [⟨p, n, false⟩]
  | .dir n cs => if is_hidden n then [] else ⟨p, n, false⟩ :: walkForest p cs

/-- Walk each tree of a forest (children of the directory at `p`). -/
def walkForest (p : List String) : FsForest → List RawEntry
  | .nil => []
  | .cons c rest => walk (p ++ [c.name]) c ++ walkForest p rest

end

/-- Resolve a path below a node, as the `stat` behind `Path::exists`
would: each component selects the child of that name; a path below a
file or into an unreadable directory does not resolve (`exists()` is
false both for missing and for inaccessible paths). -/
def FsTree.lookup : List String → FsTree → Option FsTree
  | [], t => some t
  | c :: rest, .dir _ cs =>
    match cs.find c with
    | some u => FsTree.lookup rest u
    | none => none
  | _ :: _, _ => none

/-- `Path::strip_prefix` on component lists: remove `root` from the
front of `p`, or fail when `root` is not a leading run of `p`. -/
def stripRoot : List String → List String → Option (List String)
  | [], p => some p
  | _ :: _, [] => none
  | a :: as, b :: bs => if a == b then stripRoot as bs else none

/-- Join path components with `/`, as `Path::to_string_lossy` renders a
relative path on Unix (the empty component list renders as the empty
string, which is what `strip_prefix` of a path from itself produces). -/
def joinComponents : List String → String
  | [] => ""
  | [x] => x
  | x :: xs => x ++ "/" ++ joinComponents xs

/-- Render an absolute path (a component list below `/`). -/
def absString (p : List String) : String :=
  "/" ++ joinComponents p

/-- The relative path of an entry as vault.rs computes it:
`path.strip_prefix(&vault_root)` rendered lossily, with the entry's base
name as fallback when prefix-stripping fails. -/
def relPathOf (root p : List String) (name : String) : String :=
  match stripRoot root p with
  | some q => joinComponents q
  | none => name

/-- A result descriptor, `FileEntry` of vault.rs. -/
structure FileEntry where
  name : String
  path : String
  relative_path : String
deriving DecidableEq

/-- Build the `FileEntry` for a yielded entry (vault.rs lines 41-60). -/
def mkEntry (root : List String) (r : RawEntry) : FileEntry :=
  { name := r.name
    path := absString r.path
    relative_path := relPathOf root r.path r.name }

/-- Byte-lexicographic comparison of strings, as `String::cmp` of Rust:
`a ≤ b` in the plain lexicographic order on the character sequences
(UTF-8 byte order and code-point order agree). -/
def lexLeB : List Char → List Char → Bool
  | [], _ => true
  | _ :: _, [] => false
  | a :: as, b :: bs =>
    if a.toNat < b.toNat then true
    else if b.toNat < a.toNat then false
    else lexLeB as bs

/-- Comparison of two descriptors by `relative_path` (the `sort_by`
comparator of vault.rs line 63). -/
def entryLE (a b : FileEntry) : Prop :=
  lexLeB a.relative_path.data b.relative_path.data = true

instance : DecidableRel entryLE := fun a b =>
  inferInstanceAs (Decidable (lexLeB a.relative_path.data b.relative_path.data = true))

/-- `results.sort_by(|a, b| a.relative_path.cmp(&b.relative_path))`:
Rust's stable sort, embedded as the stable insertion sort. -/
def sortEntries (l : List FileEntry) : List FileEntry :=
  List.insertionSort entryLE l

/-- The unsorted result list: descriptors of all yielded entries that
pass `is_markdown_file`, in traversal order. -/
def entriesOf (root : List String) (t : FsTree) : List FileEntry :=
  ((walk root t).filter is_markdown_file).map (mkEntry root)

/-- A lowercase hexadecimal digit (for Rust's `\u` escapes). -/
def hexDigit (n : Nat) : Char :=
  if n < 10 then Char.ofNat (48 + n) else Char.ofNat (87 + n)

/-- Minimal lowercase hexadecimal rendering of a number, as Rust prints
the code point inside a `\u` escape. -/
def hexChars (n : Nat) : List Char :=
  if _h : n < 16 then [hexDigit n]
  else hexChars (n / 16) ++ [hexDigit (n % 16)]
decreasing_by omega

/-- Rust `Debug` escaping of one character inside a double-quoted string
(`char::escape_debug` as the `Debug` instances for `str` and `Path` use
it): the named escapes, a backslash escape for `"` and `\`, and a `\u`
escape for the remaining ASCII control characters (including delete).
Characters above ASCII are kept as-is: the model is exact on ASCII paths
(Rust also `\u`-escapes the non-printable characters beyond ASCII, which
this development does not exercise). -/
def escapeDebugChar (c : Char) : List Char :=
  if c == '"' then ['\\', '"']
  else if c == '\\' then ['\\', '\\']
  else if c == '\n' then ['\\', 'n']
  else if c == '\t' then ['\\', 't']
  else if c == '\r' then ['\\', 'r']
  else if c == '\x00' then ['\\', '0']
  else if c.toNat < 32 ∨ c.toNat = 127 then
    '\\' :: 'u' :: '\x7b' :: (hexChars c.toNat ++ ['\x7d'])
  else [c]

/-- Rust's `Debug` rendering of a path: the path string in double quotes
with `Debug` escaping. -/
def debugQuoted (s : String) : String :=
  "\"" ++ (⟨s.data.flatMap escapeDebugChar⟩ : String) ++ "\""

/-- The `NotFoundError` message of vault.rs line 30. -/
def missingMsg (root : List String) : String :=
  "Vault path does not exist: " ++ debugQuoted (absString root)

/-- The ambient state `scan_vault` consults: the home directory as
`dirs::home_dir()` resolves it (`none` when it cannot be determined),
and the filesystem tree rooted at `/`. -/
structure Fs where
  home : Option (List String)
  root : FsTree

/-- `scan_vault` from vault.rs: resolve home, join the relative vault
path, fail if the vault root does not exist, otherwise walk the tree,
keep markdown files, build descriptors and sort them by relative path. -/
def scan_vault (fs : Fs) (rel : List String) : Except String (List FileEntry) :=
  match fs.home with
  | none => .error "Could not determine home directory"
  | some home =>
    let vault_root := home ++ rel
    match FsTree.lookup vault_root fs.root with
    | none => .error (missingMsg vault_root)
    | some t => .ok (sortEntries (entriesOf vault_root t))

/-- A base name a real filesystem can hold: non-empty, no separator. -/
def validName (s : String) : Bool :=
  !s.data.isEmpty && !s.data.contains '/'

/-- Distinctness of a list of names. -/
def distinctB : List String → Bool
  | [] => true
  | x :: xs => !xs.contains x && distinctB xs

mutual

/-- Well-formedness a real directory tree satisfies: every base name is
non-empty and separator-free, and sibling names are distinct. -/
def FsTree.wf : FsTree → Bool
  | .file n => validName n
  | .unreadableDir n => validName n
  | .dir n cs => validName n && distinctB cs.names && cs.wf

/-- Well-formedness of every tree of a forest. -/
def FsForest.wf : FsForest → Bool
  | .nil => true
  | .cons c rest => c.wf && rest.wf

end

/-- A printable ASCII character other than `"` and `\`: exactly the
characters that Rust `Debug` string escaping keeps unchanged within
ASCII. -/
def plainChar (c : Char) : Prop :=
  32 ≤ c.toNat ∧ c.toNat ≤ 126 ∧ c ≠ '"' ∧ c ≠ '\\'

instance (c : Char) : Decidable (plainChar c) :=
  inferInstanceAs (Decidable (_ ∧ _ ∧ _ ∧ _))

/-- Whether `hay` begins with `needle` (character-exact). -/
def startsSeq : List Char → List Char → Bool
  | [], _ => true
  | _ :: _, [] => false
  | a :: as, b :: bs => a == b && startsSeq as bs

/-- Whether `needle` occurs contiguously inside `hay`: the decidable
sense in which an error message "contains" a path. -/
def containsSeq (needle : List Char) : List Char → Bool
  | [] => startsSeq needle []
  | c :: rest => startsSeq needle (c :: rest) || containsSeq needle rest

/-- Example home directory used by the concrete witnesses. -/
def exHome : List String := ["home", "user"]

/-- Example vault tree: markdown files, a non-matching file, a hidden
directory with a markdown file inside, a hidden markdown file, a nested
markdown file and an unreadable directory. -/
def exTree : FsTree :=
  .dir "vault" (forestOf
    [.file "a.md", .file "b.txt", .dir ".hidden" (forestOf [.file "c.md"]),
     .file ".note.md", .dir "sub" (forestOf [.file "d.md"]),
     .unreadableDir "locked"])

/-- Example filesystem holding `exTree` under the home directory. -/
def exFs : Fs :=
  ⟨some exHome,
    .dir "" (forestOf [.dir "home" (forestOf [.dir "user" (forestOf [exTree])])])⟩

/-- Example vault path relative to the home directory. -/
def exRel : List String := ["vault"]

/-- Filesystem whose vault path resolves to a markdown file, not a
directory. -/
def c5Fs : Fs :=
  ⟨some exHome,
    .dir "" (forestOf [.dir "home" (forestOf [.dir "user"
      (forestOf [.file "note.md"])])])⟩

/-- Filesystem with an existing home directory but no vault below it. -/
def c8Fs : Fs :=
  ⟨some exHome,
    .dir "" (forestOf [.dir "home" (forestOf [.dir "user" (forestOf [])])])⟩

/-- Filesystem whose vault root directory is itself hidden. -/
def c10Fs : Fs :=
  ⟨some exHome,
    .dir "" (forestOf [.dir "home" (forestOf [.dir "user"
      (forestOf [.dir ".vault" (forestOf [.file "a.md"])])])])⟩

/-! ## Traversal lemmas -/

theorem walk_file {p : List String} {n : String} :
    walk p (.file n) = if is_hidden n then [] else [⟨p, n, true⟩] := rfl

theorem walk_unreadable {p : List String} {n : String} :
    walk p (.unreadableDir n) = if is_hidden n then [] else [⟨p, n, false⟩] := rfl

theorem walk_dir {p : List String} {n : String} {cs : FsForest} :
    walk p (.dir n cs) =
      if is_hidden n then [] else ⟨p, n, false⟩ :: walkForest p cs := rfl

theorem walkForest_cons {p : List String} {c : FsTree} {rest : FsForest} :
    walkForest p (.cons c rest) =
      walk (p ++ [c.name]) c ++ walkForest p rest := rfl

mutual

/-- Every entry yielded by the traversal of a node at `p` lies at `p`
extended by a suffix of non-hidden components, the node itself is not
hidden, the entry's own base name is not hidden, and only the node itself
is yielded with the empty suffix. -/
theorem walk_mem : ∀ (t : FsTree) {p : List String} {r : RawEntry},
    r ∈ walk p t →
      is_hidden t.name = false ∧ is_hidden r.name = false ∧
        ∃ sfx, r.path = p ++ sfx ∧ (∀ x ∈ sfx, is_hidden x = false) ∧
          (sfx = [] → r.name = t.name ∧ r.isFile = t.isFile)
  | .file n, p, r, h => by
    rw [walk_file] at h
    by_cases hn : is_hidden n = true
    · rw [if_pos hn] at h
      exact absurd h (List.not_mem_nil r)
    · rw [if_neg hn] at h
      simp only [Bool.not_eq_true] at hn
      rw [List.mem_singleton] at h
      subst h
      exact ⟨hn, hn, [], by simp, by simp, fun _ => ⟨rfl, rfl⟩⟩
  | .unreadableDir n, p, r, h => by
    rw [walk_unreadable] at h
    by_cases hn : is_hidden n = true
    · rw [if_pos hn] at h
      exact absurd h (List.not_mem_nil r)
    · rw [if_neg hn] at h
      simp only [Bool.not_eq_true] at hn
      rw [List.mem_singleton] at h
      subst h
      exact ⟨hn, hn, [], by simp, by simp, fun _ => ⟨rfl, rfl⟩⟩
  | .dir n cs, p, r, h => by
    rw [walk_dir] at h
    by_cases hn : is_hidden n = true
    · rw [if_pos hn] at h
      exact absurd h (List.not_mem_nil r)
    · rw [if_neg hn] at h
      simp only [Bool.not_eq_true] at hn
      rw [List.mem_cons] at h
      rcases h with h | h
      · subst h
        exact ⟨hn, hn, [], by simp, by simp, fun _ => ⟨rfl, rfl⟩⟩
      · obtain ⟨hr, nm, q, _, hpath, hcomp⟩ := walkForest_mem cs h
        exact ⟨hn, hr, nm :: q, hpath, hcomp, fun he => by simp at he⟩

/-- Every entry yielded below a forest at `p` lies below a child whose
name is one of the forest's names; all components below `p` and the
entry's own base name are non-hidden. -/
theorem walkForest_mem : ∀ (f : FsForest) {p : List String} {r : RawEntry},
    r ∈ walkForest p f →
      is_hidden r.name = false ∧
        ∃ nm q, nm ∈ f.names ∧ r.path = p ++ (nm :: q) ∧
          (∀ x ∈ nm :: q, is_hidden x = false)
  | .cons c rest, p, r, h => by
    rw [walkForest_cons, List.mem_append] at h
    rcases h with h | h
    · obtain ⟨hc, hr, sfx, hpath, hcomp, _⟩ := walk_mem c h
      refine ⟨hr, c.name, sfx, by simp [FsForest.names], ?_, ?_⟩
      · rw [hpath, List.append_assoc]
        rfl
      · intro x hx
        rcases List.mem_cons.mp hx with hx | hx
        · subst hx; exact hc
        · exact hcomp x hx
    · obtain ⟨hr, nm, q, hmem, hpath, hcomp⟩ := walkForest_mem rest h
      exact ⟨hr, nm, q, by simp [FsForest.names, hmem], hpath, hcomp⟩

end

/-! ## Well-formedness lemmas -/

theorem distinctB_nodup : ∀ {l : List String}, distinctB l = true → l.Nodup
  | [], _ => List.nodup_nil
  | x :: xs, h => by
    simp only [distinctB, Bool.and_eq_true, Bool.not_eq_true'] at h
    refine List.nodup_cons.mpr ⟨fun hmem => ?_, distinctB_nodup h.2⟩
    exact Bool.false_ne_true (h.1 ▸ List.elem_eq_true_of_mem hmem)

/-- A well-formed node has a valid base name. -/
theorem FsTree.wf_name : ∀ t : FsTree, t.wf = true → validName t.name = true
  | .file _, h => h
  | .unreadableDir _, h => h
  | .dir n cs, h => by
    simp only [FsTree.wf, Bool.and_eq_true] at h
    exact h.1.1

mutual

/-- Over a well-formed tree, the suffix below `p` of a yielded entry
consists of valid names, and the entry with the empty suffix is the node
itself. -/
theorem walk_mem_wf : ∀ (t : FsTree) {p : List String} {r : RawEntry},
    t.wf = true → r ∈ walk p t →
      ∃ sfx, r.path = p ++ sfx ∧ (∀ x ∈ sfx, validName x = true) ∧
        (sfx = [] → r.isFile = t.isFile)
  | .file n, p, r, hw, h => by
    rw [walk_file] at h
    by_cases hn : is_hidden n = true
    · rw [if_pos hn] at h
      exact absurd h (List.not_mem_nil r)
    · rw [if_neg hn] at h
      rw [List.mem_singleton] at h
      subst h
      exact ⟨[], by simp, by simp, fun _ => rfl⟩
  | .unreadableDir n, p, r, hw, h => by
    rw [walk_unreadable] at h
    by_cases hn : is_hidden n = true
    · rw [if_pos hn] at h
      exact absurd h (List.not_mem_nil r)
    · rw [if_neg hn] at h
      rw [List.mem_singleton] at h
      subst h
      exact ⟨[], by simp, by simp, fun _ => rfl⟩
  | .dir n cs, p, r, hw, h => by
    rw [walk_dir] at h
    by_cases hn : is_hidden n = true
    · rw [if_pos hn] at h
      exact absurd h (List.not_mem_nil r)
    · rw [if_neg hn] at h
      rw [List.mem_cons] at h
      simp only [FsTree.wf, Bool.and_eq_true] at hw
      rcases h with h | h
      · subst h
        exact ⟨[], by simp, by simp, fun _ => rfl⟩
      · obtain ⟨nm, q, hpath, hval⟩ := walkForest_mem_wf cs hw.2 h
        exact ⟨nm :: q, hpath, hval, fun he => by simp at he⟩

/-- Forest version of `walk_mem_wf`: the suffix is non-empty and consists
of valid names. -/
theorem walkForest_mem_wf : ∀ (f : FsForest) {p : List String} {r : RawEntry},
    f.wf = true → r ∈ walkForest p f →
      ∃ nm q, r.path = p ++ (nm :: q) ∧ (∀ x ∈ nm :: q, validName x = true)
  | .cons c rest, p, r, hw, h => by
    simp only [FsForest.wf, Bool.and_eq_true] at hw
    rw [walkForest_cons, List.mem_append] at h
    rcases h with h | h
    · obtain ⟨sfx, hpath, hval, _⟩ := walk_mem_wf c hw.1 h
      refine ⟨c.name, sfx, ?_, ?_⟩
      · rw [hpath, List.append_assoc]
        rfl
      · intro x hx
        rcases List.mem_cons.mp hx with hx | hx
        · subst hx
          exact FsTree.wf_name c hw.1
        · exact hval x hx
    · obtain ⟨nm, q, hpath, hval⟩ := walkForest_mem_wf rest hw.2 h
      exact ⟨nm, q, hpath, hval⟩

end

mutual

/-- Over a well-formed tree, the yielded entries have pairwise distinct
paths. -/
theorem walk_nodup : ∀ (t : FsTree) {p : List String},
    t.wf = true → ((walk p t).map RawEntry.path).Nodup
  | .file n, p, _ => by
    rw [walk_file]
    by_cases hn : is_hidden n = true
    · rw [if_pos hn]; simp
    · rw [if_neg hn]; simp
  | .unreadableDir n, p, _ => by
    rw [walk_unreadable]
    by_cases hn : is_hidden n = true
    · rw [if_pos hn]; simp
    · rw [if_neg hn]; simp
  | .dir n cs, p, hw => by
    rw [walk_dir]
    by_cases hn : is_hidden n = true
    · rw [if_pos hn]; simp
    · rw [if_neg hn]
      simp only [FsTree.wf, Bool.and_eq_true] at hw
      rw [List.map_cons, List.nodup_cons]
      constructor
      · intro hmem
        obtain ⟨r, hr, hrp⟩ := List.mem_map.mp hmem
        obtain ⟨_, nm, q, _, hpath, _⟩ := walkForest_mem cs hr
        rw [hpath] at hrp
        simp at hrp
      · exact walkForest_nodup cs hw.2 (distinctB_nodup hw.1.2)

/-- Forest version of `walk_nodup`, assuming sibling names are distinct. -/
theorem walkForest_nodup : ∀ (f : FsForest) {p : List String},
    f.wf = true → f.names.Nodup → ((walkForest p f).map RawEntry.path).Nodup
  | .nil, p, _, _ => by
    simp [walkForest]
  | .cons c rest, p, hw, hnames => by
    simp only [FsForest.wf, Bool.and_eq_true] at hw
    simp only [FsForest.names, List.nodup_cons] at hnames
    rw [walkForest_cons, List.map_append, List.nodup_append]
    refine ⟨walk_nodup c hw.1, walkForest_nodup rest hw.2 hnames.2, ?_⟩
    intro π hπ₁ hπ₂
    obtain ⟨r₁, hr₁, hrp₁⟩ := List.mem_map.mp hπ₁
    obtain ⟨r₂, hr₂, hrp₂⟩ := List.mem_map.mp hπ₂
    obtain ⟨_, _, sfx, hpath₁, _, _⟩ := walk_mem c hr₁
    obtain ⟨_, nm, q, hnm, hpath₂, _⟩ := walkForest_mem rest hr₂
    have heq : r₁.path = r₂.path := hrp₁.trans hrp₂.symm
    rw [hpath₁, hpath₂, List.append_assoc] at heq
    have hcons : c.name :: sfx = nm :: q := List.append_cancel_left heq
    have : c.name = nm := (List.cons.injEq _ _ _ _ ▸ hcons).1
    exact hnames.1 (this ▸ hnm)

end

/-! ## Path and string lemmas -/

theorem stripRoot_append : ∀ (root sfx : List String),
    stripRoot root (root ++ sfx) = some sfx
  | [], sfx => rfl
  | a :: as, sfx => by
    simp only [List.cons_append, stripRoot, beq_self_eq_true, if_true]
    exact stripRoot_append as sfx

/-- `validName` unfolded to propositional form. -/
theorem validName_iff {s : String} :
    validName s = true ↔ s.data ≠ [] ∧ '/' ∉ s.data := by
  simp only [validName, Bool.and_eq_true, Bool.not_eq_true']
  constructor
  · rintro ⟨h₁, h₂⟩
    refine ⟨by simpa using h₁, fun hmem => ?_⟩
    exact Bool.false_ne_true (h₂ ▸ List.elem_eq_true_of_mem hmem)
  · rintro ⟨h₁, h₂⟩
    refine ⟨by simpa using h₁, ?_⟩
    cases hc : List.contains s.data '/' with
    | false => rfl
    | true => exact absurd (List.mem_of_elem_eq_true hc) h₂

/-- The character sequence of a joined component list. -/
theorem joinComponents_cons_cons {x y : String} {t : List String} :
    (joinComponents (x :: y :: t)).data =
      x.data ++ '/' :: (joinComponents (y :: t)).data := by
  show (x ++ "/" ++ joinComponents (y :: t)).data = _
  rw [String.data_append, String.data_append]
  rw [show "/".data = ['/'] from rfl]
  simp

/-- A joined list of valid names is empty only for the empty list. -/
theorem joinComponents_ne_nil : ∀ {l : List String}, l ≠ [] →
    (∀ x ∈ l, validName x = true) → (joinComponents l).data ≠ []
  | [], h, _ => absurd rfl h
  | [x], _, hv => by
    have := (validName_iff.mp (hv x (by simp))).1
    simpa [joinComponents] using this
  | x :: y :: t, _, hv => by
    rw [joinComponents_cons_cons]
    have := (validName_iff.mp (hv x (by simp))).1
    intro hcontra
    exact this (List.append_eq_nil.mp hcontra).1

/-- Splitting at an unambiguous separator: two decompositions around a
`'/'` that does not occur in either left part agree. -/
theorem slashSplit : ∀ (a₁ : List Char) {a₂ r₁ r₂ : List Char},
    '/' ∉ a₁ → '/' ∉ a₂ → a₁ ++ '/' :: r₁ = a₂ ++ '/' :: r₂ →
      a₁ = a₂ ∧ r₁ = r₂
  | [], a₂, r₁, r₂, _, h₂, heq => by
    cases a₂ with
    | nil => simpa using heq
    | cons d ds =>
      simp only [List.nil_append, List.cons_append, List.cons.injEq] at heq
      exact absurd (heq.1 ▸ List.mem_cons_self d ds) (heq.1 ▸ h₂)
  | c :: cs, a₂, r₁, r₂, h₁, h₂, heq => by
    cases a₂ with
    | nil =>
      simp only [List.nil_append, List.cons_append, List.cons.injEq] at heq
      exact absurd (heq.1 ▸ List.mem_cons_self c cs) (fun hm => h₁ (heq.1 ▸ hm))
    | cons d ds =>
      simp only [List.cons_append, List.cons.injEq] at heq
      have hrec := slashSplit cs (fun hm => h₁ (List.mem_cons_of_mem c hm))
        (fun hm => h₂ (List.mem_cons_of_mem d hm)) heq.2
      exact ⟨by rw [heq.1, hrec.1], hrec.2⟩

/-- Joining with `/` is injective on lists of valid names. -/
theorem joinComponents_inj : ∀ (l₁ : List String) {l₂ : List String},
    (∀ x ∈ l₁, validName x = true) → (∀ x ∈ l₂, validName x = true) →
    joinComponents l₁ = joinComponents l₂ → l₁ = l₂
  | [], l₂, _, hv₂, heq => by
    cases l₂ with
    | nil => rfl
    | cons y ys =>
      have : (joinComponents (y :: ys)).data ≠ [] :=
        joinComponents_ne_nil (by simp) hv₂
      exact absurd (congrArg String.data heq.symm) this
  | x :: xs, l₂, hv₁, hv₂, heq => by
    cases l₂ with
    | nil =>
      have : (joinComponents (x :: xs)).data ≠ [] :=
        joinComponents_ne_nil (by simp) hv₁
      exact absurd (congrArg String.data heq) this
    | cons y ys =>
      cases xs with
      | nil =>
        cases ys with
        | nil => simpa [joinComponents] using heq
        | cons z t =>
          have hdata := congrArg String.data heq
          rw [joinComponents_cons_cons] at hdata
          have hx := validName_iff.mp (hv₁ x (by simp))
          have : '/' ∈ x.data := by
            rw [show (joinComponents [x]).data = x.data from rfl] at hdata
            rw [hdata]
            simp
          exact absurd this hx.2
      | cons w t₁ =>
        cases ys with
        | nil =>
          have hdata := congrArg String.data heq
          rw [joinComponents_cons_cons] at hdata
          have hy := validName_iff.mp (hv₂ y (by simp))
          have : '/' ∈ y.data := by
            rw [show (joinComponents [y]).data = y.data from rfl] at hdata
            rw [← hdata]
            simp
          exact absurd this hy.2
        | cons z t₂ =>
          have hdata := congrArg String.data heq
          rw [joinComponents_cons_cons, joinComponents_cons_cons] at hdata
          have hx := validName_iff.mp (hv₁ x (by simp))
          have hy := validName_iff.mp (hv₂ y (by simp))
          obtain ⟨hhead, htail⟩ := slashSplit x.data hx.2 hy.2 hdata
          have hxy : x = y := String.ext hhead
          have hrest : joinComponents (w :: t₁) = joinComponents (z :: t₂) :=
            String.ext htail
          have := joinComponents_inj (w :: t₁)
            (fun a ha => hv₁ a (List.mem_cons_of_mem x ha))
            (fun a ha => hv₂ a (List.mem_cons_of_mem y ha)) hrest
          rw [hxy, this]

/-! ## Ordering lemmas -/

theorem char_eq_of_toNat_eq {a b : Char} (h : a.toNat = b.toNat) : a = b :=
  Char.ext (UInt32.ext h)

theorem lexLeB_refl : ∀ (a : List Char), lexLeB a a = true
  | [] => rfl
  | c :: cs => by
    simp only [lexLeB, Nat.lt_irrefl, if_false]
    exact lexLeB_refl cs

theorem lexLeB_total : ∀ (a b : List Char), lexLeB a b = true ∨ lexLeB b a = true
  | [], _ => Or.inl rfl
  | _ :: _, [] => Or.inr rfl
  | a :: as, b :: bs => by
    rcases Nat.lt_trichotomy a.toNat b.toNat with h | h | h
    · left
      simp [lexLeB, h]
    · have hba : ¬b.toNat < a.toNat := by omega
      have hab : ¬a.toNat < b.toNat := by omega
      rcases lexLeB_total as bs with hr | hr
      · left
        simp [lexLeB, hab, hba, hr]
      · right
        simp [lexLeB, hab, hba, hr]
    · right
      simp [lexLeB, h]

theorem lexLeB_trans : ∀ {a b c : List Char},
    lexLeB a b = true → lexLeB b c = true → lexLeB a c = true
  | [], _, _, _, _ => rfl
  | _ :: _, [], _, h₁, _ => by simp [lexLeB] at h₁
  | _ :: _, _ :: _, [], _, h₂ => by simp [lexLeB] at h₂
  | a :: as, b :: bs, c :: cs, h₁, h₂ => by
    simp only [lexLeB] at h₁ h₂ ⊢
    rcases Nat.lt_trichotomy a.toNat b.toNat with hab | hab | hab
    · rcases Nat.lt_trichotomy b.toNat c.toNat with hbc | hbc | hbc
      · simp [show a.toNat < c.toNat by omega]
      · simp [show a.toNat < c.toNat by omega]
      · simp [hbc, show ¬b.toNat < c.toNat by omega] at h₂
    · rcases Nat.lt_trichotomy b.toNat c.toNat with hbc | hbc | hbc
      · simp [show a.toNat < c.toNat by omega]
      · have hac : a.toNat = c.toNat := by omega
        simp only [show ¬a.toNat < b.toNat by omega, show ¬b.toNat < a.toNat by omega,
          if_false] at h₁
        simp only [show ¬b.toNat < c.toNat by omega, show ¬c.toNat < b.toNat by omega,
          if_false] at h₂
        simp only [show ¬a.toNat < c.toNat by omega, show ¬c.toNat < a.toNat by omega,
          if_false]
        exact lexLeB_trans h₁ h₂
      · simp [show ¬b.toNat < c.toNat by omega, hbc] at h₂
    · simp [show ¬a.toNat < b.toNat by omega, hab] at h₁

theorem lexLeB_antisymm : ∀ {a b : List Char},
    lexLeB a b = true → lexLeB b a = true → a = b
  | [], [], _, _ => rfl
  | _ :: _, [], h₁, _ => by simp [lexLeB] at h₁
  | [], _ :: _, _, h₂ => by simp [lexLeB] at h₂
  | a :: as, b :: bs, h₁, h₂ => by
    simp only [lexLeB] at h₁ h₂
    rcases Nat.lt_trichotomy a.toNat b.toNat with hab | hab | hab
    · simp [show ¬b.toNat < a.toNat by omega, hab] at h₂
    · simp only [show ¬a.toNat < b.toNat by omega, show ¬b.toNat < a.toNat by omega,
        if_false] at h₁ h₂
      rw [char_eq_of_toNat_eq hab, lexLeB_antisymm h₁ h₂]
    · simp [show ¬a.toNat < b.toNat by omega, hab] at h₁

instance : IsTotal FileEntry entryLE :=
  ⟨fun a b => lexLeB_total a.relative_path.data b.relative_path.data⟩

instance : IsTrans FileEntry entryLE :=
  ⟨fun _ _ _ h₁ h₂ => lexLeB_trans h₁ h₂⟩

theorem sortEntries_sorted (l : List FileEntry) :
    (sortEntries l).Pairwise entryLE :=
  List.sorted_insertionSort entryLE l

theorem sortEntries_perm (l : List FileEntry) : (sortEntries l).Perm l :=
  List.perm_insertionSort entryLE l

/-- Two sorted permutations of each other with pairwise-distinct
`relative_path` keys are equal. -/
theorem sorted_nodupkeys_eq {l₁ l₂ : List FileEntry} (hp : l₁.Perm l₂)
    (hs₁ : l₁.Pairwise entryLE) (hs₂ : l₂.Pairwise entryLE)
    (hn : (l₁.map FileEntry.relative_path).Nodup) : l₁ = l₂ := by
  have hn₂ : (l₂.map FileEntry.relative_path).Nodup :=
    (hp.map FileEntry.relative_path).nodup_iff.mp hn
  have hne₁ : l₁.Pairwise fun a b => a.relative_path ≠ b.relative_path :=
    List.pairwise_map.mp hn
  have hne₂ : l₂.Pairwise fun a b => a.relative_path ≠ b.relative_path :=
    List.pairwise_map.mp hn₂
  haveI : IsAntisymm FileEntry
      (fun a b => entryLE a b ∧ a.relative_path ≠ b.relative_path) := by
    refine ⟨fun a b hab hba => ?_⟩
    have : a.relative_path = b.relative_path :=
      String.ext (lexLeB_antisymm hab.1 hba.1)
    exact absurd this hab.2
  exact List.eq_of_perm_of_sorted hp (hs₁.and hne₁) (hs₂.and hne₂)

/-! ## Composition lemmas for `scan_vault` -/

theorem scan_vault_ok {fs : Fs} {rel h : List String} {u : FsTree}
    (hh : fs.home = some h)
    (hl : FsTree.lookup (h ++ rel) fs.root = some u) :
    scan_vault fs rel = .ok (sortEntries (entriesOf (h ++ rel) u)) := by
  simp [scan_vault, hh, hl]

theorem scan_vault_ok_elim {fs : Fs} {rel : List String}
    {res : List FileEntry} (hres : scan_vault fs rel = .ok res) :
    ∃ h u, fs.home = some h ∧ FsTree.lookup (h ++ rel) fs.root = some u ∧
      res = sortEntries (entriesOf (h ++ rel) u) := by
  cases hh : fs.home with
  | none => simp [scan_vault, hh] at hres
  | some h =>
    cases hl : FsTree.lookup (h ++ rel) fs.root with
    | none => simp [scan_vault, hh, hl] at hres
    | some u =>
      simp only [scan_vault, hh, hl, Except.ok.injEq] at hres
      exact ⟨h, u, rfl, hl, hres.symm⟩

theorem entriesOf_mem {root : List String} {t : FsTree} {e : FileEntry} :
    e ∈ entriesOf root t ↔
      ∃ r, r ∈ walk root t ∧ is_markdown_file r = true ∧ e = mkEntry root r := by
  simp only [entriesOf, List.mem_map, List.mem_filter]
  constructor
  · rintro ⟨r, ⟨hr, hmd⟩, he⟩
    exact ⟨r, hr, hmd, he.symm⟩
  · rintro ⟨r, hr, hmd, he⟩
    exact ⟨r, ⟨hr, hmd⟩, he.symm⟩

theorem mkEntry_relative_path {root sfx : List String} {r : RawEntry}
    (hpath : r.path = root ++ sfx) :
    (mkEntry root r).relative_path = joinComponents sfx := by
  simp only [mkEntry, relPathOf, hpath, stripRoot_append]

/-- Over a well-formed tree, the `relative_path` keys of the unsorted
result list are pairwise distinct. -/
theorem entriesOf_keys_nodup {root : List String} {t : FsTree}
    (hw : t.wf = true) :
    ((entriesOf root t).map FileEntry.relative_path).Nodup := by
  have hpaths : (((walk root t).filter is_markdown_file).map RawEntry.path).Nodup :=
    (walk_nodup t hw).sublist
      (List.Sublist.map RawEntry.path (List.filter_sublist _))
  have hinj := List.inj_on_of_nodup_map hpaths
  have hl : ((walk root t).filter is_markdown_file).Nodup :=
    List.Nodup.of_map RawEntry.path hpaths
  rw [entriesOf, List.map_map]
  refine List.Nodup.map_on ?_ hl
  intro r₁ hr₁ r₂ hr₂ hkeys
  have hw₁ := walk_mem_wf t hw (List.mem_of_mem_filter hr₁)
  have hw₂ := walk_mem_wf t hw (List.mem_of_mem_filter hr₂)
  obtain ⟨sfx₁, hpath₁, hval₁, _⟩ := hw₁
  obtain ⟨sfx₂, hpath₂, hval₂, _⟩ := hw₂
  simp only [Function.comp_apply] at hkeys
  rw [mkEntry_relative_path hpath₁, mkEntry_relative_path hpath₂] at hkeys
  have hsfx : sfx₁ = sfx₂ := joinComponents_inj sfx₁ hval₁ hval₂ hkeys
  exact hinj hr₁ hr₂ (by rw [hpath₁, hpath₂, hsfx])

/-! ## Remaining helper lemmas -/

theorem is_markdown_file_iff {r : RawEntry} :
    is_markdown_file r = true ↔
      r.isFile = true ∧ rustExtension r.name = some "md" := by
  simp [is_markdown_file]

/-- A hidden node yields nothing at all: the `filter_entry` predicate
applies to the traversal root itself. -/
theorem walk_hidden : ∀ (t : FsTree) {p : List String},
    is_hidden t.name = true → walk p t = []
  | .file n, p, h => by
    simp only [FsTree.name] at h
    rw [walk_file, if_pos h]
  | .unreadableDir n, p, h => by
    simp only [FsTree.name] at h
    rw [walk_unreadable, if_pos h]
  | .dir n cs, p, h => by
    simp only [FsTree.name] at h
    rw [walk_dir, if_pos h]

theorem string_ne_empty_of_data {s : String} (h : s.data ≠ []) : s ≠ "" :=
  fun he => h (by rw [he])

theorem escape_plain : ∀ {cs : List Char}, (∀ c ∈ cs, plainChar c) →
    cs.flatMap escapeDebugChar = cs
  | [], _ => rfl
  | c :: rest, h => by
    obtain ⟨h32, h126, hq, hbs⟩ := h c (by simp)
    have e3 : c ≠ '\n' := fun he => by
      subst he
      exact absurd h32 (by decide)
    have e4 : c ≠ '\t' := fun he => by
      subst he
      exact absurd h32 (by decide)
    have e5 : c ≠ '\r' := fun he => by
      subst he
      exact absurd h32 (by decide)
    have e6 : c ≠ '\x00' := fun he => by
      subst he
      exact absurd h32 (by decide)
    have hesc : escapeDebugChar c = [c] := by
      unfold escapeDebugChar
      rw [if_neg (by simp only [beq_iff_eq]; exact hq),
        if_neg (by simp only [beq_iff_eq]; exact hbs),
        if_neg (by simp only [beq_iff_eq]; exact e3),
        if_neg (by simp only [beq_iff_eq]; exact e4),
        if_neg (by simp only [beq_iff_eq]; exact e5),
        if_neg (by simp only [beq_iff_eq]; exact e6),
        if_neg (by omega)]
    rw [List.flatMap_cons, hesc,
      escape_plain fun x hx => h x (List.mem_cons_of_mem c hx)]
    rfl

theorem startsSeq_iff : ∀ (n hay : List Char),
    startsSeq n hay = true ↔ ∃ l, hay = n ++ l
  | [], hay => by
    simp [startsSeq]
  | a :: as, [] => by
    simp [startsSeq]
  | a :: as, b :: bs => by
    simp only [startsSeq, Bool.and_eq_true, beq_iff_eq, List.cons_append,
      List.cons.injEq]
    constructor
    · rintro ⟨rfl, hs⟩
      obtain ⟨l, rfl⟩ := (startsSeq_iff as bs).mp hs
      exact ⟨l, rfl, rfl⟩
    · rintro ⟨l, rfl, rfl⟩
      exact ⟨rfl, (startsSeq_iff as _).mpr ⟨l, rfl⟩⟩

theorem containsSeq_iff : ∀ (n hay : List Char),
    containsSeq n hay = true ↔ ∃ l₁ l₂, hay = l₁ ++ n ++ l₂
  | n, [] => by
    rw [show containsSeq n [] = startsSeq n [] from rfl, startsSeq_iff]
    constructor
    · rintro ⟨l, hl⟩
      exact ⟨[], l, by simpa using hl⟩
    · rintro ⟨l₁, l₂, hl⟩
      have h0 : l₁ ++ (n ++ l₂) = [] := by rw [← List.append_assoc, ← hl]
      obtain ⟨h1, h2⟩ := List.append_eq_nil.mp h0
      obtain ⟨h3, h4⟩ := List.append_eq_nil.mp h2
      exact ⟨l₂, by simp [h3, h4]⟩
  | n, c :: rest => by
    rw [show containsSeq n (c :: rest) =
      (startsSeq n (c :: rest) || containsSeq n rest) from rfl]
    rw [Bool.or_eq_true, startsSeq_iff, containsSeq_iff]
    constructor
    · rintro (⟨l, hl⟩ | ⟨l₁, l₂, hl⟩)
      · exact ⟨[], l, by simpa using hl⟩
      · exact ⟨c :: l₁, l₂, by rw [hl]; rfl⟩
    · rintro ⟨l₁, l₂, hl⟩
      cases l₁ with
      | nil => exact Or.inl ⟨l₂, by simpa using hl⟩
      | cons d ds =>
        simp only [List.cons_append, List.cons.injEq] at hl
        exact Or.inr ⟨ds, l₂, hl.2⟩

/-! ## Claims -/

/-- C1: for every valid vault root, the result of `scan_vault` contains
exactly the regular files of the traversed tree whose extension equals
`md` under case-sensitive comparison, and nothing else: no directories
and no files with a non-matching extension. -/
theorem claim_c1 {fs : Fs} {rel h : List String} {u : FsTree}
    {res : List FileEntry} (hh : fs.home = some h)
    (hl : FsTree.lookup (h ++ rel) fs.root = some u)
    (hres : scan_vault fs rel = .ok res) :
    ∀ e, e ∈ res ↔ ∃ r, r ∈ walk (h ++ rel) u ∧ r.isFile = true ∧
      rustExtension r.name = some "md" ∧ e = mkEntry (h ++ rel) r := by
  obtain ⟨h', u', hh', hl', hform⟩ := scan_vault_ok_elim hres
  rw [hh] at hh'
  injection hh' with hh2
  subst hh2
  rw [hl] at hl'
  injection hl' with hl2
  subst hl2
  subst hform
  intro e
  rw [List.Perm.mem_iff (sortEntries_perm _), entriesOf_mem]
  constructor
  · rintro ⟨r, hr, hmd, he⟩
    obtain ⟨h₁, h₂⟩ := is_markdown_file_iff.mp hmd
    exact ⟨r, hr, h₁, h₂, he⟩
  · rintro ⟨r, hr, h₁, h₂, he⟩
    exact ⟨r, hr, is_markdown_file_iff.mpr ⟨h₁, h₂⟩, he⟩

/-- Witness for C1 on the concrete example filesystem, instantiated at
the first returned descriptor. -/
theorem claim_c1_witness :
    (⟨"a.md", "/home/user/vault/a.md", "a.md"⟩ : FileEntry) ∈
        [(⟨"a.md", "/home/user/vault/a.md", "a.md"⟩ : FileEntry),
          ⟨"d.md", "/home/user/vault/sub/d.md", "sub/d.md"⟩] ↔
      ∃ r, r ∈ walk (exHome ++ exRel) exTree ∧ r.isFile = true ∧
        rustExtension r.name = some "md" ∧
        (⟨"a.md", "/home/user/vault/a.md", "a.md"⟩ : FileEntry) =
          mkEntry (exHome ++ exRel) r :=
  @claim_c1 exFs exRel exHome exTree _ rfl rfl rfl
    ⟨"a.md", "/home/user/vault/a.md", "a.md"⟩

/-- C2: no file beneath a hidden directory (base name starting with `.`)
appears in the result, at any depth: every returned descriptor arises
from a traversed path all of whose components below the vault root are
non-hidden. -/
theorem claim_c2 {fs : Fs} {rel h : List String} {u : FsTree}
    {res : List FileEntry} (hh : fs.home = some h)
    (hl : FsTree.lookup (h ++ rel) fs.root = some u)
    (hres : scan_vault fs rel = .ok res) :
    ∀ e ∈ res, ∃ r sfx, r ∈ walk (h ++ rel) u ∧ e = mkEntry (h ++ rel) r ∧
      r.path = (h ++ rel) ++ sfx ∧ ∀ x ∈ sfx, is_hidden x = false := by
  intro e he
  obtain ⟨r, hr, _, _, hform⟩ := (claim_c1 hh hl hres e).mp he
  obtain ⟨_, _, sfx, hpath, hcomp, _⟩ := walk_mem u hr
  exact ⟨r, sfx, hr, hform, hpath, hcomp⟩

/-- Witness for C2 on the concrete example filesystem (which contains a
hidden directory with a markdown file inside). -/
theorem claim_c2_witness :
    ∃ r sfx, r ∈ walk (exHome ++ exRel) exTree ∧
      (⟨"d.md", "/home/user/vault/sub/d.md", "sub/d.md"⟩ : FileEntry) =
        mkEntry (exHome ++ exRel) r ∧
      r.path = (exHome ++ exRel) ++ sfx ∧ ∀ x ∈ sfx, is_hidden x = false :=
  @claim_c2 exFs exRel exHome exTree _ rfl rfl rfl
    ⟨"d.md", "/home/user/vault/sub/d.md", "sub/d.md"⟩ (by decide)

/-- C3: every successful result is sorted ascending by `relative_path`
under plain byte/lexicographic comparison, and is a permutation of the
collected descriptors, i.e. it equals that set sorted by a lexicographic
sort. -/
theorem claim_c3 {fs : Fs} {rel : List String} {res : List FileEntry}
    (hres : scan_vault fs rel = .ok res) :
    res.Pairwise entryLE ∧
      ∃ h u, fs.home = some h ∧ FsTree.lookup (h ++ rel) fs.root = some u ∧
        res.Perm (entriesOf (h ++ rel) u) := by
  obtain ⟨h, u, hh, hl, hform⟩ := scan_vault_ok_elim hres
  subst hform
  exact ⟨sortEntries_sorted _, h, u, hh, hl, sortEntries_perm _⟩

/-- Witness for C3 on the concrete example filesystem. -/
theorem claim_c3_witness :
    ([(⟨"a.md", "/home/user/vault/a.md", "a.md"⟩ : FileEntry),
        ⟨"d.md", "/home/user/vault/sub/d.md", "sub/d.md"⟩].Pairwise entryLE) ∧
      ∃ h u, exFs.home = some h ∧
        FsTree.lookup (h ++ exRel) exFs.root = some u ∧
        List.Perm [(⟨"a.md", "/home/user/vault/a.md", "a.md"⟩ : FileEntry),
            ⟨"d.md", "/home/user/vault/sub/d.md", "sub/d.md"⟩]
          (entriesOf (h ++ exRel) u) :=
  @claim_c3 exFs exRel _ rfl

/-- C4: `scan_vault` fails exactly when the home directory cannot be
resolved or the resolved vault root does not exist; in every other case
it succeeds (with zero or more files), unreadable subtrees being
silently skipped rather than surfaced. -/
theorem claim_c4 (fs : Fs) (rel : List String) :
    ((∃ msg, scan_vault fs rel = .error msg) ↔
      fs.home = none ∨
        ∃ h, fs.home = some h ∧ FsTree.lookup (h ++ rel) fs.root = none)
    ∧ ∀ h u, fs.home = some h → FsTree.lookup (h ++ rel) fs.root = some u →
        scan_vault fs rel = .ok (sortEntries (entriesOf (h ++ rel) u)) := by
  constructor
  · constructor
    · rintro ⟨msg, hmsg⟩
      cases hh : fs.home with
      | none => exact Or.inl rfl
      | some h =>
        cases hl : FsTree.lookup (h ++ rel) fs.root with
        | none => exact Or.inr ⟨h, rfl, hl⟩
        | some u =>
          rw [scan_vault_ok hh hl] at hmsg
          exact absurd hmsg (by simp)
    · rintro (hh | ⟨h, hh, hl⟩)
      · exact ⟨"Could not determine home directory", by simp [scan_vault, hh]⟩
      · exact ⟨missingMsg (h ++ rel), by simp [scan_vault, hh, hl]⟩
  · intro h u hh hl
    exact scan_vault_ok hh hl

/-- Witness for C4: a failing call without a home directory, and a
succeeding call on the concrete example filesystem. -/
theorem claim_c4_witness :
    (∃ msg, scan_vault ⟨none, exTree⟩ exRel = .error msg) ∧
      scan_vault exFs exRel =
        .ok (sortEntries (entriesOf (exHome ++ exRel) exTree)) :=
  ⟨(claim_c4 ⟨none, exTree⟩ exRel).1.mpr (Or.inl rfl),
    (claim_c4 exFs exRel).2 exHome exTree rfl rfl⟩

/-- C5 counterexample: when the vault path resolves to a markdown file
rather than a directory, `scan_vault` returns that root entry itself
with an empty `relative_path`, so the claim "`relativePath` is always
non-empty" fails as stated. -/
theorem claim_c5_counterexample :
    ∃ res e, scan_vault c5Fs ["note.md"] = .ok res ∧ e ∈ res ∧
      e.relative_path = "" :=
  ⟨[⟨"note.md", "/home/user/note.md", ""⟩],
    ⟨"note.md", "/home/user/note.md", ""⟩, rfl, by simp, rfl⟩

/-- C5 (amended): over a well-formed tree, whenever the resolved vault
root is not itself a regular file (in particular whenever it is a
directory), every returned descriptor has a non-empty `relative_path`;
the root itself is never returned because it is not a file. -/
theorem claim_c5_amended {fs : Fs} {rel h : List String} {u : FsTree}
    {res : List FileEntry} (hh : fs.home = some h)
    (hl : FsTree.lookup (h ++ rel) fs.root = some u)
    (hwf : u.wf = true) (hnotfile : u.isFile = false)
    (hres : scan_vault fs rel = .ok res) :
    ∀ e ∈ res, e.relative_path ≠ "" := by
  intro e he
  obtain ⟨r, hr, hfile, _, hform⟩ := (claim_c1 hh hl hres e).mp he
  obtain ⟨sfx, hpath, hval, himp⟩ := walk_mem_wf u hwf hr
  have hsfx : sfx ≠ [] := by
    intro hnil
    rw [hfile] at himp
    rw [← himp hnil] at hnotfile
    exact Bool.true_eq_false ▸ hnotfile
  rw [hform, mkEntry_relative_path hpath]
  exact string_ne_empty_of_data (joinComponents_ne_nil hsfx hval)

/-- Witness for the amended C5 on the concrete example filesystem. -/
theorem claim_c5_amended_witness :
    (⟨"d.md", "/home/user/vault/sub/d.md", "sub/d.md"⟩ : FileEntry).relative_path
      ≠ "" :=
  @claim_c5_amended exFs exRel exHome exTree _ rfl rfl (by decide) rfl rfl
    ⟨"d.md", "/home/user/vault/sub/d.md", "sub/d.md"⟩ (by decide)

/-- C6: hidden files, not only hidden directories, are excluded: every
returned descriptor has a base name that does not start with `.`, even
though a hidden name such as `.note.md` passes the extension filter. -/
theorem claim_c6 {fs : Fs} {rel h : List String} {u : FsTree}
    {res : List FileEntry} (hh : fs.home = some h)
    (hl : FsTree.lookup (h ++ rel) fs.root = some u)
    (hres : scan_vault fs rel = .ok res) :
    rustExtension ".note.md" = some "md" ∧
      ∀ e ∈ res, is_hidden e.name = false := by
  refine ⟨rfl, fun e he => ?_⟩
  obtain ⟨r, hr, _, _, hform⟩ := (claim_c1 hh hl hres e).mp he
  obtain ⟨_, hname, _⟩ := walk_mem u hr
  rw [hform]
  exact hname

/-- Witness for C6 on the concrete example filesystem, which contains a
hidden file named `.note.md` that is indeed not returned. -/
theorem claim_c6_witness :
    rustExtension ".note.md" = some "md" ∧
      ∀ e ∈ [(⟨"a.md", "/home/user/vault/a.md", "a.md"⟩ : FileEntry),
          ⟨"d.md", "/home/user/vault/sub/d.md", "sub/d.md"⟩],
        is_hidden e.name = false :=
  @claim_c6 exFs exRel exHome exTree _ rfl rfl rfl

/-- C7: every returned descriptor's `relative_path` is the traversed
path with the vault-root prefix stripped (prefix-stripping always
succeeds for traversed entries); and when prefix-stripping fails, the
computation falls back to the entry's base name instead of failing. -/
theorem claim_c7 {fs : Fs} {rel h : List String} {u : FsTree}
    {res : List FileEntry} (hh : fs.home = some h)
    (hl : FsTree.lookup (h ++ rel) fs.root = some u)
    (hres : scan_vault fs rel = .ok res) :
    (∀ e ∈ res, ∃ r sfx, r ∈ walk (h ++ rel) u ∧
        e = mkEntry (h ++ rel) r ∧
        stripRoot (h ++ rel) r.path = some sfx ∧
        e.relative_path = joinComponents sfx)
    ∧ ∀ (root p : List String) (nm : String),
        stripRoot root p = none → relPathOf root p nm = nm := by
  constructor
  · intro e he
    obtain ⟨r, hr, _, _, hform⟩ := (claim_c1 hh hl hres e).mp he
    obtain ⟨_, _, sfx, hpath, _, _⟩ := walk_mem u hr
    refine ⟨r, sfx, hr, hform, ?_, ?_⟩
    · rw [hpath]
      exact stripRoot_append _ _
    · rw [hform]
      exact mkEntry_relative_path hpath
  · intro root p nm hnone
    simp [relPathOf, hnone]

/-- Witness for C7 on the concrete example filesystem. -/
theorem claim_c7_witness :
    (∀ e ∈ [(⟨"a.md", "/home/user/vault/a.md", "a.md"⟩ : FileEntry),
        ⟨"d.md", "/home/user/vault/sub/d.md", "sub/d.md"⟩],
      ∃ r sfx, r ∈ walk (exHome ++ exRel) exTree ∧
        e = mkEntry (exHome ++ exRel) r ∧
        stripRoot (exHome ++ exRel) r.path = some sfx ∧
        e.relative_path = joinComponents sfx)
    ∧ ∀ (root p : List String) (nm : String),
        stripRoot root p = none → relPathOf root p nm = nm :=
  @claim_c7 exFs exRel exHome exTree _ rfl rfl rfl

/-- C9: `scan_vault` is deterministic over an unchanged tree: the final
sorted result does not depend on the order in which the operating system
enumerated the entries — sorting any permutation of the collected
descriptors of a well-formed tree yields exactly the returned list. -/
theorem claim_c9 {fs : Fs} {rel h : List String} {u : FsTree}
    {res : List FileEntry} (hh : fs.home = some h)
    (hl : FsTree.lookup (h ++ rel) fs.root = some u)
    (hwf : u.wf = true) (hres : scan_vault fs rel = .ok res)
    (l : List FileEntry) (hperm : l.Perm (entriesOf (h ++ rel) u)) :
    sortEntries l = res := by
  obtain ⟨h', u', hh', hl', hform⟩ := scan_vault_ok_elim hres
  rw [hh] at hh'
  injection hh' with hh2
  subst hh2
  rw [hl] at hl'
  injection hl' with hl2
  subst hl2
  subst hform
  have hk := @entriesOf_keys_nodup (h ++ rel) u hwf
  apply sorted_nodupkeys_eq
  · exact (sortEntries_perm l).trans (hperm.trans (sortEntries_perm _).symm)
  · exact sortEntries_sorted l
  · exact sortEntries_sorted _
  · have hlk : (l.map FileEntry.relative_path).Nodup :=
      ((hperm.map FileEntry.relative_path).nodup_iff).mpr hk
    exact (((sortEntries_perm l).map FileEntry.relative_path).nodup_iff).mpr hlk

/-- Witness for C9: sorting the reversed enumeration of the concrete
example vault yields the same final result. -/
theorem claim_c9_witness :
    sortEntries [⟨"d.md", "/home/user/vault/sub/d.md", "sub/d.md"⟩,
        ⟨"a.md", "/home/user/vault/a.md", "a.md"⟩] =
      [⟨"a.md", "/home/user/vault/a.md", "a.md"⟩,
        ⟨"d.md", "/home/user/vault/sub/d.md", "sub/d.md"⟩] :=
  @claim_c9 exFs exRel exHome exTree _ rfl rfl (by decide) rfl _ (by decide)

/-- C10: when the vault root directory's own base name starts with `.`,
the hidden-entry filter applies to the root entry itself and the scan
succeeds with an empty result even though the root exists and contains
matching files. -/
theorem claim_c10 {fs : Fs} {rel h : List String} {u : FsTree}
    (hh : fs.home = some h)
    (hl : FsTree.lookup (h ++ rel) fs.root = some u)
    (hhid : is_hidden u.name = true) :
    scan_vault fs rel = .ok [] := by
  rw [scan_vault_ok hh hl]
  rw [show entriesOf (h ++ rel) u = [] from by
    rw [entriesOf, walk_hidden u hhid]
    rfl]
  rfl

/-- Witness for C10: a hidden vault directory containing a markdown file
scans to the empty result. -/
theorem claim_c10_witness : scan_vault c10Fs [".vault"] = .ok [] :=
  @claim_c10 c10Fs [".vault"] exHome (.dir ".vault" (forestOf [.file "a.md"]))
    rfl rfl rfl
